import Mathlib

/-!
Shallow embedding of the day-5 module (`src/day5/mod.rs`): the chained
interval-remapping resolver with parallel brute-force minimization.

Modelling conventions:
* `u64` values are `Nat`; arithmetic that the Rust program performs on `u64`
  is taken modulo `U64 = 2 ^ 64` (release-mode wrapping semantics) exactly
  where the source performs it.
* The Rust `while let` loop in `Almanac::resolve` may diverge, so the
  embedding `Almanac.resolveFuel` takes a fuel argument and returns `none`
  when the fuel is exhausted; `some v` means the loop returned `v`.
* Rust iterator combinators over a worker's range become explicit lists;
  `Iterator::min` becomes `iterMin` (`none` on an empty list, which in the
  source is the `Option` that `Worker::run` unwraps — a panic).
-/

namespace Day5

/-- `2 ^ 64`, the modulus of Rust `u64` arithmetic. -/
def U64 : Nat := 2 ^ 64

/-- `Path` from the source: a `source`/`destination` category pair parsed
from a `<source>-to-<destination>` map header. -/
structure Path where
  source : String
  destination : String
deriving DecidableEq, Repr

/-- `MapRange` from the source: one range rule
`{ destination_start, source_start, len }`. -/
structure MapRange where
  destination_start : Nat
  source_start : Nat
  len : Nat
deriving DecidableEq, Repr

/-- `MapRange::range`: returns `(source_start, source_start + len)`
(the `+` is `u64` addition). -/
def MapRange.range (r : MapRange) : Nat × Nat :=
  (r.source_start, (r.source_start + r.len) % U64)

/-- `MapRange::map`: `(n >= range_start && n <= range_end).then(|| destination_start + n - range_start)`.
Note the source tests `n <= range_end`, a closed upper bound.  The arithmetic
`destination_start + n - range_start` is `u64` wrapping arithmetic; for
`range_start < U64` it equals `(destination_start + n + (U64 - range_start)) % U64`. -/
def MapRange.map (r : MapRange) (n : Nat) : Option Nat :=
  let p := r.range
  if p.1 ≤ n ∧ n ≤ p.2 then
    some ((r.destination_start + n + (U64 - p.1)) % U64)
  else
    none

/-- `Map` from the source: a category map with its ordered list of rules. -/
structure Map where
  category : Path
  ranges : List MapRange
deriving DecidableEq, Repr

/-- `Map::map`: `self.ranges.iter().find_map(|r| r.map(n))` — the first rule
(in declaration order) whose `map` matches wins. -/
def Map.map (m : Map) (n : Nat) : Option Nat :=
  m.ranges.findSome? (fun r => r.map n)

/-- `Almanac` from the source: the list of category maps. -/
structure Almanac where
  maps : List Map
deriving DecidableEq, Repr

/-- `Almanac::map`: `self.maps.iter().find(|m| m.category.source == source)`. -/
def Almanac.map (a : Almanac) (source : String) : Option Map :=
  a.maps.find? (fun m => m.category.source == source)

/-- `Almanac::resolve`, fuel-indexed.  The source runs
`while let Some(map) = self.map(next_map)`: advance `next_map` to the map's
destination, apply the map to the current value (keeping the value on a
miss), and break once the applied map's destination equals `destination`.
`none` means the loop did not finish within `fuel` iterations. -/
def Almanac.resolveFuel (a : Almanac) : Nat → Nat → String → String → Option Nat
  | 0, _, _, _ => none
  | fuel + 1, seed, source, destination =>
    match a.map source with
    | none => some seed
    | some m =>
      let dest := match m.map seed with
        | some n => n
        | none => seed
      if m.category.destination = destination then
        some dest
      else
        a.resolveFuel fuel dest m.category.destination destination

/-- The chunking performed by `self.0.chunks(2)` in `Seeds::ranges`:
two-element chunks, with a final one-element chunk when the list length
is odd. -/
def chunks2 : List Nat → List (List Nat)
  | [] => []
  | [x] => [[x]]
  | x :: y :: rest => [x, y] :: chunks2 rest

/-- `Seeds::ranges`: each chunk `c` yields
`(c.first().unwrap(), c.first().unwrap() + c.last().unwrap())`
(the `+` is `u64` addition).  Chunks produced by `chunks2` are never empty,
so the `headD`/`getLastD` defaults are never consulted. -/
def seedRanges (seeds : List Nat) : List (Nat × Nat) :=
  (chunks2 seeds).map (fun c => (c.headD 0, (c.headD 0 + c.getLastD 0) % U64))

/-- The values a worker enumerates: `(range.0 .. range.1)`, i.e. the
half-open interval `[lo, hi)`. -/
def seedsOf (r : Nat × Nat) : List Nat :=
  List.range' r.1 (r.2 - r.1)

/-- Rust `Iterator::min` on a list of `Nat`: `none` on the empty list. -/
def iterMin : List Nat → Option Nat
  | [] => none
  | x :: xs =>
    some (match iterMin xs with
      | none => x
      | some m => Nat.min x m)

/-- Combine two optional minima (the reduction step of `iterMin`). -/
def omin : Option Nat → Option Nat → Option Nat
  | none, b => b
  | some a, none => some a
  | some a, some b => some (Nat.min a b)

/-- Thread an `Option`-producing function over a list, failing if any call
fails (used to propagate fuel exhaustion / panics through the pipeline). -/
def mapOpt {α β : Type} (f : α → Option β) : List α → Option (List β)
  | [] => some []
  | x :: xs =>
    match f x, mapOpt f xs with
    | some y, some ys => some (y :: ys)
    | _, _ => none

/-- Concatenation of the per-range value lists (used by the sequential
specification of part 2). -/
def concatMap {α β : Type} (f : α → List β) : List α → List β
  | [] => []
  | x :: xs => f x ++ concatMap f xs

/-- `Worker::run`: the minimum of `almanac.resolve(s, "seed", "location")`
over every `s` in the assigned half-open range.  The final `iterMin` is the
`.min()` whose `None` the source `unwrap`s (a panic on an empty range);
a `none` from `mapOpt` records a resolution that did not finish in `fuel`
steps. -/
def workerRun (fuel : Nat) (a : Almanac) (r : Nat × Nat) : Option Nat :=
  (mapOpt (fun s => a.resolveFuel fuel s "seed" "location") (seedsOf r)).bind iterMin

/-- `Day5::part_2`: one worker per seed range, all results joined and
reduced with `.min()`; `none` models both the `ok_or` error on an empty
worker list and a worker panic propagated through `join().unwrap()`. -/
def part2Min (fuel : Nat) (a : Almanac) (seeds : List Nat) : Option Nat :=
  (mapOpt (workerRun fuel a) (seedRanges seeds)).bind iterMin

/-- Modelled from the spec: the sequential reference for part 2 —
resolve every value of every seed range from "seed" to "location" in one
flat sequential pass and take the minimum. -/
def seqMinSpec (fuel : Nat) (a : Almanac) (seeds : List Nat) : Option Nat :=
  (mapOpt (fun s => a.resolveFuel fuel s "seed" "location")
    (concatMap seedsOf (seedRanges seeds))).bind iterMin

/-- A small concrete almanac used by witnesses: a single seed→soil map with
one rule shifting values of `[0, 10]` up by one. -/
def A1 : Almanac := ⟨[⟨⟨"seed", "soil"⟩, [⟨1, 0, 10⟩]⟩]⟩

/-! ### Helper lemmas about `List.findSome?` -/

lemma findSome?_eq_none_of_all {α β : Type} {f : α → Option β} :
    ∀ {l : List α}, (∀ a ∈ l, f a = none) → l.findSome? f = none
  | [], _ => rfl
  | x :: xs, h => by
    have hx : f x = none := h x (List.mem_cons_self x xs)
    have ih := findSome?_eq_none_of_all (fun a ha => h a (List.mem_cons_of_mem x ha))
    simp [List.findSome?, hx, ih]

lemma findSome?_eq_of_take {α β : Type} (f : α → Option β) :
    ∀ (l : List α) (i : Nat) (hi : i < l.length) (w : β),
      f (l.get ⟨i, hi⟩) = some w → (∀ a ∈ l.take i, f a = none) →
      l.findSome? f = some w := by
  intro l
  induction l with
  | nil => intro i hi; exact absurd hi (by simp)
  | cons x xs ih =>
    intro i hi w hw hpre
    cases i with
    | zero =>
      have hx : f x = some w := hw
      simp [List.findSome?, hx]
    | succ n =>
      have hx : f x = none := hpre x (by simp)
      simp only [List.findSome?, hx]
      exact ih n (by simpa using hi) w (by simpa using hw)
        (fun a ha => hpre a (by simp [ha]))

/-! ### Claims about `MapRange::map` -/

/-- Claim C1 (code bug): the spec defines the half-open source interval
`[source_start, source_start + len)` and states that values outside it are
unaffected and that a rule with `len = 0` matches no value.  The source
tests `n >= range_start && n <= range_end`, a CLOSED upper bound: the rule
`{dest 50, src 98, len 2}` maps `100` (outside `[98, 100)`) to `52`, and the
zero-length rule `{dest 50, src 98, len 0}` maps `98` to `50`. -/
theorem mapRange_closed_upper_bound_bug :
    MapRange.map ⟨50, 98, 2⟩ 100 = some 52 ∧
      MapRange.map ⟨50, 98, 0⟩ 98 = some 50 :=
  ⟨by decide, by decide⟩

/-- Claim C5: for every rule `r` whose interval and translated interval fit
in a `u64` and every value `v` with `source_start ≤ v < source_start + len`,
`map(v)` returns exactly `destination_start + (v - source_start)` — no
off-by-one at either boundary. -/
theorem mapRange_in_interval_exact (r : MapRange) (v : Nat)
    (hs : r.source_start + r.len < U64) (hd : r.destination_start + r.len ≤ U64)
    (h1 : r.source_start ≤ v) (h2 : v < r.source_start + r.len) :
    r.map v = some (r.destination_start + (v - r.source_start)) := by
  unfold MapRange.map MapRange.range
  simp only [Nat.mod_eq_of_lt hs]
  rw [if_pos ⟨h1, Nat.le_of_lt h2⟩]
  have hlt : r.destination_start + (v - r.source_start) < U64 := by omega
  have heq : r.destination_start + v + (U64 - r.source_start) =
      r.destination_start + (v - r.source_start) + U64 := by omega
  rw [heq, Nat.add_mod_right, Nat.mod_eq_of_lt hlt]

theorem mapRange_in_interval_exact_witness :
    MapRange.map ⟨50, 98, 2⟩ 99 = some (50 + (99 - 98)) :=
  mapRange_in_interval_exact ⟨50, 98, 2⟩ 99 (by decide) (by decide)
    (by decide) (by decide)

/-! ### Claims about `Map::map` and the identity fallback -/

/-- Claim C6: when no rule of a category map matches `v`, `Map::map`
signals no match (`none`), and the corresponding hop of `Almanac::resolve`
passes `v` through unchanged (identity fallback): the loop either stops with
`v` (when the hop's destination is the target) or continues with `v` intact. -/
theorem map_identity_fallback (m : Map) (v : Nat) (a : Almanac) (fuel : Nat)
    (c d : String)
    (h : ∀ r ∈ m.ranges, r.map v = none) (hc : a.map c = some m) :
    m.map v = none ∧
      a.resolveFuel (fuel + 1) v c d =
        if m.category.destination = d then some v
        else a.resolveFuel fuel v m.category.destination d := by
  have hm : m.map v = none := findSome?_eq_none_of_all h
  refine ⟨hm, ?_⟩
  simp [Almanac.resolveFuel, hc, hm]

theorem map_identity_fallback_witness :
    Map.map ⟨⟨"seed", "soil"⟩, [⟨1, 0, 10⟩]⟩ 50 = none ∧
      A1.resolveFuel 1 50 "seed" "location" =
        if ("soil" : String) = "location" then some 50
        else A1.resolveFuel 0 50 "soil" "location" :=
  map_identity_fallback ⟨⟨"seed", "soil"⟩, [⟨1, 0, 10⟩]⟩ 50 A1 0 "seed" "location"
    (by decide) (by decide)

/-- Claim C8: `Map::map` is `find_map` over the rules in declaration order,
so when the rule at position `i` matches `v` and no earlier rule matches,
the result is exactly rule `i`'s translation: first match in declaration
order wins, deterministically, and overlap yields a value, not an error. -/
theorem map_first_match_wins (m : Map) (v : Nat) (i : Nat)
    (hi : i < m.ranges.length) (w : Nat)
    (hmatch : (m.ranges.get ⟨i, hi⟩).map v = some w)
    (hfirst : ∀ r ∈ m.ranges.take i, r.map v = none) :
    m.map v = some w := by
  unfold Map.map
  exact findSome?_eq_of_take (fun r => r.map v) m.ranges i hi w hmatch hfirst

theorem map_first_match_wins_witness :
    Map.map ⟨⟨"a", "b"⟩, [⟨100, 10, 5⟩, ⟨200, 10, 5⟩]⟩ 12 = some 102 :=
  map_first_match_wins ⟨⟨"a", "b"⟩, [⟨100, 10, 5⟩, ⟨200, 10, 5⟩]⟩ 12 0
    (by decide) 102 (by decide) (by decide)

/-! ### Claims about `Almanac::resolve` -/

/-- Claim C7: whenever the traversal's current category label `c` has no
category map (including when `c` is the origin itself), `resolve` stops and
returns its current value unchanged — no error is raised. -/
theorem resolve_no_map_returns_value (a : Almanac) (fuel : Nat) (v : Nat)
    (c d : String) (h : a.map c = none) :
    a.resolveFuel (fuel + 1) v c d = some v := by
  simp [Almanac.resolveFuel, h]

theorem resolve_no_map_returns_value_witness :
    A1.resolveFuel 1 42 "soil" "location" = some 42 :=
  resolve_no_map_returns_value A1 0 42 "soil" "location" (by decide)

/-- Claim C3 (counterexample): `resolve(5, "seed", "seed")` on the almanac
`A1` (one seed→soil map shifting `[0, 10]` up by one) terminates in two loop
iterations with `6`, not `5`: the loop applies the seed→soil hop before any
equality check against the target, so resolution with origin equal to
target is not the identity. -/
theorem resolve_seed_seed_not_identity :
    A1.resolveFuel 2 5 "seed" "seed" = some 6 ∧ (6 : Nat) ≠ 5 :=
  ⟨by decide, by decide⟩

/-- Claim C3 (amended): `resolve(v, c, c)` returns `v` unchanged exactly in
the case where the almanac has no category map whose source is `c`; when
such a map exists the loop body runs and may change the value. -/
theorem resolve_self_identity_of_no_map (a : Almanac) (fuel : Nat) (v : Nat)
    (c : String) (h : a.map c = none) :
    a.resolveFuel (fuel + 1) v c c = some v := by
  simp [Almanac.resolveFuel, h]

theorem resolve_self_identity_of_no_map_witness :
    A1.resolveFuel 1 7 "soil" "soil" = some 7 :=
  resolve_self_identity_of_no_map A1 0 7 "soil" (by decide)

/-! ### Claims about part 2's empty-domain handling -/

/-- Claim C4 (counterexample): the zero-length seed range encoded by the raw
seed list `[5, 0]` is not rejected: `Seeds::ranges` emits the empty interval
`(5, 5)`, a worker is scheduled on it, and that worker's run produces no
value (the source panics unwrapping the minimum of an empty iterator), which
also sinks the whole part-2 computation. -/
theorem zero_length_range_reaches_worker :
    seedRanges [5, 0] = [(5, 5)] ∧ workerRun 1 A1 (5, 5) = none ∧
      part2Min 1 A1 [5, 0] = none :=
  ⟨by decide, by decide, by decide⟩

/-- Claim C4 (amended): with zero seed ranges overall, part 2 produces the
reported fatal error (no worker exists, and the reduction of the empty
worker list yields no value); but a zero-length seed range is NOT rejected
before scheduling — it is handed to a worker whose run yields no value
(the source worker panics unwrapping the minimum of its empty range). -/
theorem part2_empty_domain_behavior (fuel : Nat) (a : Almanac) (r : Nat × Nat)
    (h : r.2 ≤ r.1) :
    part2Min fuel a [] = none ∧ seedRanges [] = [] ∧
      workerRun fuel a r = none := by
  refine ⟨rfl, rfl, ?_⟩
  have h0 : r.2 - r.1 = 0 := Nat.sub_eq_zero_of_le h
  simp [workerRun, seedsOf, h0, List.range', mapOpt, iterMin]

theorem part2_empty_domain_behavior_witness :
    part2Min 0 A1 [] = none ∧ seedRanges [] = [] ∧
      workerRun 0 A1 (5, 5) = none :=
  part2_empty_domain_behavior 0 A1 (5, 5) (by decide)

/-! ### Termination behaviour of `Almanac::resolve` -/

/-- A self-loop almanac: its single map sends category "a" back to "a", so
resolution towards any other target never stops. -/
def Acyc : Almanac := ⟨[⟨⟨"a", "a"⟩, []⟩]⟩

lemma resolve_terminates_aux (a : Almanac) (rk : String → Nat)
    (hrk : ∀ m ∈ a.maps, rk m.category.destination < rk m.category.source) :
    ∀ (fuel : Nat) (v : Nat) (c d : String), rk c < fuel →
      ∃ w, a.resolveFuel fuel v c d = some w := by
  intro fuel
  induction fuel with
  | zero => intro v c d h; exact absurd h (Nat.not_lt_zero _)
  | succ n ih =>
    intro v c d h
    cases hc : a.map c with
    | none => exact ⟨v, by simp [Almanac.resolveFuel, hc]⟩
    | some m =>
      have hmem : m ∈ a.maps := List.mem_of_find?_eq_some hc
      have hsrc : m.category.source = c := by
        have hb := List.find?_some hc
        simpa using hb
      by_cases hd : m.category.destination = d
      · refine ⟨match m.map v with | some x => x | none => v, ?_⟩
        simp only [Almanac.resolveFuel, hc, if_pos hd]
      · have hlt : rk m.category.destination < n := by
          have hm := hrk m hmem
          rw [hsrc] at hm
          omega
        obtain ⟨w, hw⟩ := ih (match m.map v with | some x => x | none => v)
          m.category.destination d hlt
        refine ⟨w, ?_⟩
        simp only [Almanac.resolveFuel, hc, if_neg hd]
        exact hw

lemma resolve_diverges_aux (a : Almanac) (d : String) :
    ∀ (fuel : Nat) (labels : Nat → String),
      (∀ i, ∃ m, a.map (labels i) = some m ∧
        m.category.destination = labels (i + 1) ∧ m.category.destination ≠ d) →
      ∀ v, a.resolveFuel fuel v (labels 0) d = none := by
  intro fuel
  induction fuel with
  | zero => intro labels h v; rfl
  | succ n ih =>
    intro labels h v
    obtain ⟨m, hm, hdest, hne⟩ := h 0
    simp only [Almanac.resolveFuel, hm, if_neg hne]
    rw [hdest]
    exact ih (fun i => labels (i + 1)) (fun i => h (i + 1)) _

/-- Claim C9: the loop of `resolve` stops exactly at the two exit
conditions (no map matches the current label; the applied map's destination
equals the target); it terminates whenever the source-to-destination
successor relation is acyclic (witnessed by a rank strictly decreasing
along every map, the fuel `rk c` sufficing), and it continues indefinitely —
`none` at every fuel — whenever the chain from the origin is an endless
sequence of matching maps never reaching the target (cycles are not
detected). -/
theorem resolve_termination_behavior :
    (∀ (a : Almanac) (fuel v : Nat) (c d : String), a.map c = none →
        a.resolveFuel (fuel + 1) v c d = some v) ∧
    (∀ (a : Almanac) (fuel v : Nat) (c d : String) (m : Map),
        a.map c = some m → m.category.destination = d →
        a.resolveFuel (fuel + 1) v c d =
          some (match m.map v with | some n => n | none => v)) ∧
    (∀ (a : Almanac) (rk : String → Nat),
        (∀ m ∈ a.maps, rk m.category.destination < rk m.category.source) →
        ∀ (fuel v : Nat) (c d : String), rk c < fuel →
          ∃ w, a.resolveFuel fuel v c d = some w) ∧
    (∀ (a : Almanac) (d : String) (labels : Nat → String),
        (∀ i, ∃ m, a.map (labels i) = some m ∧
          m.category.destination = labels (i + 1) ∧ m.category.destination ≠ d) →
        ∀ (fuel v : Nat), a.resolveFuel fuel v (labels 0) d = none) := by
  refine ⟨?_, ?_, ?_, ?_⟩
  · intro a fuel v c d h
    simp [Almanac.resolveFuel, h]
  · intro a fuel v c d m hc hd
    cases hmv : m.map v <;> simp [Almanac.resolveFuel, hc, hd, hmv]
  · intro a rk hrk fuel v c d h
    exact resolve_terminates_aux a rk hrk fuel v c d h
  · intro a d labels h fuel v
    exact resolve_diverges_aux a d fuel labels h v

theorem resolve_termination_behavior_witness :
    (∃ w, A1.resolveFuel 2 5 "seed" "location" = some w) ∧
      Acyc.resolveFuel 5 0 "a" "z" = none :=
  ⟨resolve_termination_behavior.2.2.1 A1
      (fun c => if c = "seed" then 1 else 0) (by decide) 2 5 "seed" "location"
      (by decide),
    resolve_termination_behavior.2.2.2 Acyc "z" (fun _ => "a")
      (fun _ => ⟨⟨⟨"a", "a"⟩, []⟩, rfl, rfl, by decide⟩) 5 0⟩

/-! ### `Seeds::ranges` on an odd seed list -/

lemma chunks2_append_single : ∀ (l : List Nat), l.length % 2 = 0 →
    ∀ s, chunks2 (l ++ [s]) = chunks2 l ++ [[s]]
  | [], _, s => rfl
  | [x], h, s => by simp at h
  | x :: y :: rest, h, s => by
    have h2 : rest.length % 2 = 0 := by
      simp only [List.length_cons] at h
      omega
    have ih := chunks2_append_single rest h2 s
    simp [chunks2, ih]

/-- Claim C10: on a raw seed list with an odd number of integers, the
trailing unpaired element `s` is neither an error nor skipped: its chunk is
`[s]`, whose first and last element are both `s`, so the produced range
sequence ends with `(s, s + s)`. -/
theorem seeds_ranges_odd_trailing (l : List Nat) (s : Nat)
    (hl : l.length % 2 = 0) (hs : s + s < U64) :
    seedRanges (l ++ [s]) = seedRanges l ++ [(s, s + s)] := by
  unfold seedRanges
  rw [chunks2_append_single l hl s, List.map_append]
  simp [Nat.mod_eq_of_lt hs]

theorem seeds_ranges_odd_trailing_witness :
    seedRanges ([1, 2] ++ [7]) = seedRanges [1, 2] ++ [(7, 7 + 7)] :=
  seeds_ranges_odd_trailing [1, 2] 7 (by decide) (by decide)

/-! ### Minimum-reduction lemmas for part 2 -/

lemma iterMin_nil : iterMin [] = none := rfl

lemma iterMin_single (m : Nat) : iterMin [m] = some m := rfl

lemma iterMin_cons (x : Nat) (l : List Nat) :
    iterMin (x :: l) = omin (some x) (iterMin l) := by
  cases h : iterMin l <;> simp [iterMin, omin, h]

lemma omin_comm : ∀ a b : Option Nat, omin a b = omin b a
  | none, none => rfl
  | none, some _ => rfl
  | some _, none => rfl
  | some a, some b => by simp [omin, Nat.min_comm]

lemma omin_assoc : ∀ a b c : Option Nat, omin (omin a b) c = omin a (omin b c)
  | none, _, _ => rfl
  | some _, none, _ => rfl
  | some _, some _, none => rfl
  | some a, some b, some c => by simp [omin, Nat.min_assoc]

lemma iterMin_append :
    ∀ l₁ l₂ : List Nat, iterMin (l₁ ++ l₂) = omin (iterMin l₁) (iterMin l₂)
  | [], l₂ => by simp [iterMin, omin]
  | x :: xs, l₂ => by
    rw [List.cons_append, iterMin_cons, iterMin_append xs l₂, iterMin_cons,
      omin_assoc]

lemma iterMin_perm {l l' : List Nat} (h : l.Perm l') : iterMin l = iterMin l' := by
  induction h with
  | nil => rfl
  | cons x _ ih => rw [iterMin_cons, iterMin_cons, ih]
  | swap x y l =>
    rw [iterMin_cons, iterMin_cons, iterMin_cons, iterMin_cons,
      ← omin_assoc, ← omin_assoc, omin_comm (some y) (some x)]
  | trans _ _ ih₁ ih₂ => rw [ih₁, ih₂]

lemma iterMin_ne_nil : ∀ {l : List Nat}, l ≠ [] → ∃ m, iterMin l = some m
  | [], h => absurd rfl h
  | _ :: _, _ => ⟨_, rfl⟩

lemma iterMin_eq_none {l : List Nat} (h : iterMin l = none) : l = [] := by
  cases l with
  | nil => rfl
  | cons x xs => simp [iterMin] at h

lemma mapOpt_nil {α β : Type} (f : α → Option β) : mapOpt f [] = some [] := rfl

lemma mapOpt_cons {α β : Type} (f : α → Option β) (x : α) (xs : List α) :
    mapOpt f (x :: xs) =
      match f x, mapOpt f xs with
      | some y, some ys => some (y :: ys)
      | _, _ => none := rfl

lemma mapOpt_ne_nil {α β : Type} (f : α → Option β) {l : List α} {ys : List β}
    (h : mapOpt f l = some ys) (hl : l ≠ []) : ys ≠ [] := by
  cases l with
  | nil => exact absurd rfl hl
  | cons x xs =>
    intro hys
    subst hys
    rw [mapOpt_cons] at h
    cases hx : f x <;> cases hxs : mapOpt f xs <;> simp [hx, hxs] at h

lemma mapOpt_append {α β : Type} (f : α → Option β) :
    ∀ l₁ l₂ : List α, mapOpt f (l₁ ++ l₂) =
      match mapOpt f l₁, mapOpt f l₂ with
      | some ys, some zs => some (ys ++ zs)
      | _, _ => none
  | [], l₂ => by cases h : mapOpt f l₂ <;> simp [mapOpt, h]
  | x :: xs, l₂ => by
    have ih := mapOpt_append f xs l₂
    cases hx : f x <;> cases h1 : mapOpt f xs <;> cases h2 : mapOpt f l₂ <;>
      rw [h1, h2] at ih <;>
      simp [mapOpt_cons, hx, ih, h1, h2]

lemma seedsOf_ne_nil {r : Nat × Nat} (h : r.1 < r.2) : seedsOf r ≠ [] := by
  unfold seedsOf
  obtain ⟨k, hk⟩ : ∃ k, r.2 - r.1 = k + 1 := ⟨r.2 - r.1 - 1, by omega⟩
  rw [hk]
  simp [List.range']

lemma concatMap_cons {α β : Type} (f : α → List β) (x : α) (xs : List α) :
    concatMap f (x :: xs) = f x ++ concatMap f xs := rfl

lemma concatMap_ne_nil {rs : List (Nat × Nat)} (hne : rs ≠ [])
    (hall : ∀ r ∈ rs, r.1 < r.2) : concatMap seedsOf rs ≠ [] := by
  cases rs with
  | nil => exact absurd rfl hne
  | cons r rest =>
    have h1 : seedsOf r ≠ [] := seedsOf_ne_nil (hall r (List.mem_cons_self r rest))
    intro hc
    rw [concatMap_cons] at hc
    exact h1 (List.append_eq_nil.mp hc).1

lemma sched_eq (fuel : Nat) (a : Almanac) :
    ∀ rs : List (Nat × Nat), rs ≠ [] → (∀ r ∈ rs, r.1 < r.2) →
      (mapOpt (workerRun fuel a) rs).bind iterMin =
        (mapOpt (fun s => a.resolveFuel fuel s "seed" "location")
          (concatMap seedsOf rs)).bind iterMin := by
  intro rs
  induction rs with
  | nil => intro h; exact absurd rfl h
  | cons r rest ih =>
    intro _ hall
    have hr : r.1 < r.2 := hall r (List.mem_cons_self r rest)
    have hsr : seedsOf r ≠ [] := seedsOf_ne_nil hr
    cases rest with
    | nil =>
      simp only [concatMap, List.append_nil]
      cases h1 : mapOpt (fun s => a.resolveFuel fuel s "seed" "location")
          (seedsOf r) with
      | none =>
        have hw : workerRun fuel a r = none := by simp [workerRun, h1]
        rw [mapOpt_cons, mapOpt_nil, hw]
      | some vs =>
        have hvs : vs ≠ [] := mapOpt_ne_nil _ h1 hsr
        obtain ⟨m, hm⟩ := iterMin_ne_nil hvs
        have hw : workerRun fuel a r = some m := by simp [workerRun, h1, hm]
        rw [mapOpt_cons, mapOpt_nil, hw]
        exact hm.symm
    | cons r2 rest2 =>
      have hne2 : r2 :: rest2 ≠ ([] : List (Nat × Nat)) := by simp
      have hall2 : ∀ x ∈ r2 :: rest2, x.1 < x.2 :=
        fun x hx => hall x (List.mem_cons_of_mem r hx)
      have ih2 := ih hne2 hall2
      have hcne : concatMap seedsOf (r2 :: rest2) ≠ [] :=
        concatMap_ne_nil hne2 hall2
      rw [concatMap_cons, mapOpt_append]
      cases h1 : mapOpt (fun s => a.resolveFuel fuel s "seed" "location")
          (seedsOf r) with
      | none =>
        have hw : workerRun fuel a r = none := by simp [workerRun, h1]
        rw [mapOpt_cons, hw]
      | some vs1 =>
        have hvs1 : vs1 ≠ [] := mapOpt_ne_nil _ h1 hsr
        obtain ⟨m1, hm1⟩ := iterMin_ne_nil hvs1
        have hw : workerRun fuel a r = some m1 := by simp [workerRun, h1, hm1]
        cases h2 : mapOpt (fun s => a.resolveFuel fuel s "seed" "location")
            (concatMap seedsOf (r2 :: rest2)) with
        | none =>
          have hwr : mapOpt (workerRun fuel a) (r2 :: rest2) = none := by
            cases hws : mapOpt (workerRun fuel a) (r2 :: rest2) with
            | none => rfl
            | some ms =>
              rw [hws, h2] at ih2
              simp at ih2
              exact absurd (iterMin_eq_none ih2) (mapOpt_ne_nil _ hws hne2)
          rw [mapOpt_cons, hw, hwr]
        | some vs2 =>
          have hvs2 : vs2 ≠ [] := mapOpt_ne_nil _ h2 hcne
          obtain ⟨m2, hm2⟩ := iterMin_ne_nil hvs2
          obtain ⟨ms, hws1, hims⟩ :
              ∃ ms, mapOpt (workerRun fuel a) (r2 :: rest2) = some ms ∧
                iterMin ms = some m2 := by
            cases hws0 : mapOpt (workerRun fuel a) (r2 :: rest2) with
            | none =>
              rw [hws0, h2] at ih2
              simp [hm2] at ih2
            | some ms =>
              rw [hws0, h2] at ih2
              simp [hm2] at ih2
              exact ⟨ms, rfl, ih2⟩
          rw [mapOpt_cons, hw, hws1]
          show iterMin (m1 :: ms) = iterMin (vs1 ++ vs2)
          rw [iterMin_cons, hims, iterMin_append, hm1, hm2]

/-- Claim C2: the value part 2 computes — one worker per seed range, each
taking the minimum over its range, all worker results reduced with a final
minimum — equals the minimum of sequentially resolving every value of every
seed range from "seed" to "location", for every almanac, every fuel bound,
and every non-empty list of non-empty seed ranges; and the reduction is
order-independent: permuting the list of worker results never changes the
reduced minimum. -/
theorem scheduler_refines_sequential :
    (∀ (fuel : Nat) (a : Almanac) (seeds : List Nat),
        seedRanges seeds ≠ [] → (∀ r ∈ seedRanges seeds, r.1 < r.2) →
        part2Min fuel a seeds = seqMinSpec fuel a seeds) ∧
    (∀ ws ws' : List Nat, ws.Perm ws' → iterMin ws = iterMin ws') := by
  constructor
  · intro fuel a seeds hne hall
    unfold part2Min seqMinSpec
    exact sched_eq fuel a (seedRanges seeds) hne hall
  · intro ws ws' h
    exact iterMin_perm h

theorem scheduler_refines_sequential_witness :
    part2Min 3 A1 [0, 2, 10, 1] = seqMinSpec 3 A1 [0, 2, 10, 1] ∧
      iterMin [3, 1, 2] = iterMin [1, 2, 3] :=
  ⟨scheduler_refines_sequential.1 3 A1 [0, 2, 10, 1] (by decide) (by decide),
    scheduler_refines_sequential.2 [3, 1, 2] [1, 2, 3] (by decide)⟩

end Day5
